import Mathlib

/-!
Shallow embedding of the `shed` typed secondary-index layer
(`package shed`, file `index.go` of the repository) together with a
model of the database facade it runs on.  Byte slices are embedded as
`List Nat` (each element intended `< 256`); machine integers carry no
arithmetic in this file, so `Int`/`Nat` are exact.  Fallible Go code
returns `Except Err`.
-/

set_option autoImplicit false

namespace Shed

/-- Equality of `Except` results is decidable when both components
are. -/
instance instDecEqExcept {ε α : Type} [DecidableEq ε] [DecidableEq α] :
    DecidableEq (Except ε α) := fun a b =>
  match a, b with
  | .ok x, .ok y =>
    if h : x = y then .isTrue (by rw [h]) else .isFalse (by intro hc; cases hc; exact h rfl)
  | .error x, .error y =>
    if h : x = y then .isTrue (by rw [h]) else .isFalse (by intro hc; cases hc; exact h rfl)
  | .ok _, .error _ => .isFalse (by intro hc; cases hc)
  | .error _, .ok _ => .isFalse (by intro hc; cases hc)

/-- Error kinds of the layer: `notFound` models both `shed.ErrNotFound`
and `badger.ErrKeyNotFound` (the layer compares errors against the
latter and converts), the codec kinds model user codec failures, and
`engineIO` models any other engine failure. -/
inductive Err where
  | notFound
  | codecEncode
  | codecDecode
  | engineIO
deriving DecidableEq

/-- `Item` from `index.go`: the sparse record of chunk fields.  Go's
nilable byte slices `Address`/`Data` become `Option (List Nat)`
(`none` ↔ Go `nil`); the numeric fields use the zero value as the
"unset" sentinel exactly as the Go struct does. -/
structure Item where
  Address : Option (List Nat)
  Data : Option (List Nat)
  AccessTimestamp : Int
  StoreTimestamp : Int
  BinID : Nat
  PinCounter : Nat
  Tag : Nat
deriving DecidableEq

/-- The all-zero `Item` (Go's zero value of the struct). -/
def zeroItem : Item :=
  { Address := none, Data := none, AccessTimestamp := 0, StoreTimestamp := 0,
    BinID := 0, PinCounter := 0, Tag := 0 }

/-- `Item.Merge` from `index.go`: each field of the receiver that holds
its zero value (nil for the byte-slice fields) is replaced by the
corresponding field of the argument. -/
def Item.Merge (i i2 : Item) : Item :=
  { Address := match i.Address with
      | none => i2.Address
      | some a => some a
    Data := match i.Data with
      | none => i2.Data
      | some d => some d
    AccessTimestamp := if i.AccessTimestamp = 0 then i2.AccessTimestamp else i.AccessTimestamp
    StoreTimestamp := if i.StoreTimestamp = 0 then i2.StoreTimestamp else i.StoreTimestamp
    BinID := if i.BinID = 0 then i2.BinID else i.BinID
    PinCounter := if i.PinCounter = 0 then i2.PinCounter else i.PinCounter
    Tag := if i.Tag = 0 then i2.Tag else i.Tag }

/-- The seven field names of `Item`, used to express which fields a
codec commits to. -/
inductive Field where
  | address
  | data
  | accessTimestamp
  | storeTimestamp
  | binID
  | pinCounter
  | tag
deriving DecidableEq

/-- Projection of an `Item` onto a set of fields: fields outside the
set are reset to their zero value. -/
def projectItem (s : Field → Bool) (i : Item) : Item :=
  { Address := if s Field.address then i.Address else none
    Data := if s Field.data then i.Data else none
    AccessTimestamp := if s Field.accessTimestamp then i.AccessTimestamp else 0
    StoreTimestamp := if s Field.storeTimestamp then i.StoreTimestamp else 0
    BinID := if s Field.binID then i.BinID else 0
    PinCounter := if s Field.pinCounter then i.PinCounter else 0
    Tag := if s Field.tag then i.Tag else 0 }

/-- Strict lexicographic (bytewise, shortlex-on-ties) order on byte
strings, as the ordered KV engine compares keys. -/
def lexLt : List Nat → List Nat → Bool
  | [], [] => false
  | [], _ :: _ => true
  | _ :: _, [] => false
  | a :: as, b :: bs => if a < b then true else if b < a then false else lexLt as bs

/-- Reflexive lexicographic order on byte strings. -/
def lexLe : List Nat → List Nat → Bool
  | [], _ => true
  | _ :: _, [] => false
  | a :: as, b :: bs => if a < b then true else if b < a then false else lexLe as bs

/-- `bytes.HasPrefix`: does `s` start with `p`? -/
def hasPrefixB (p s : List Nat) : Bool :=
  match p, s with
  | [], _ => true
  | _ :: _, [] => false
  | a :: as, b :: bs => a == b && hasPrefixB as bs

/-- Modelled from the spec (§4.2 database facade; file `db.go` is not
under src/): the database content as an association list from keys to
values, most recent write first. -/
def DBModel : Type := List (List Nat × List Nat)

/-- Modelled from the spec: `get(key) → value | NotFound`; the first
binding for the key wins (latest write). -/
def dbGet (db : DBModel) (key : List Nat) : Option (List Nat) :=
  (db.find? (fun p => p.1 == key)).map (fun p => p.2)

/-- Modelled from the spec: `put(key, value)` as a single-shot write
shadowing any earlier binding of the key. -/
def dbPut (db : DBModel) (key value : List Nat) : DBModel :=
  (key, value) :: db

/-- Modelled from the spec: `delete(key)` removes every binding of the
key. -/
def dbDelete (db : DBModel) (key : List Nat) : DBModel :=
  db.filter (fun p => p.1 != key)

/-- Modelled from the spec: `has(key) → bool`, existence without
loading the value. -/
def dbHas (db : DBModel) (key : List Nat) : Bool :=
  (dbGet db key).isSome

/-- Modelled from the spec: `count_from(start_key)` counts the entries
whose key is at least `start_key`. -/
def dbCountFrom (db : DBModel) (key : List Nat) : Nat :=
  (db.filter (fun p => lexLe key p.1)).length

/-- Modelled from the spec: `count_prefix(p)` counts the entries whose
key starts with `p`. -/
def dbCountPfx (db : DBModel) (p : List Nat) : Nat :=
  (db.filter (fun q => hasPrefixB p q.1)).length

/-- Modelled from the spec: a badger iterator `Seek(key)` over a sorted
snapshot key list lands on the first key that is ≥ the sought key, or
is invalid (`none`) when no such key exists. -/
def seek (keys : List (List Nat)) (key : List Nat) : Option (List Nat) :=
  keys.find? (fun k => lexLe key k)

/-- `IndexFuncs` from `index.go`: the four user-supplied codec
functions of an index. -/
structure IndexFuncs where
  EncodeKey : Item → Except Err (List Nat)
  DecodeKey : List Nat → Except Err Item
  EncodeValue : Item → Except Err (List Nat)
  DecodeValue : Item → List Nat → Except Err Item

/-- `Index` from `index.go`: the allocated one-byte key namespace
(`pfx`, Go field `prefix`) and the prefix-adjusted codec functions. -/
structure Index where
  pfx : List Nat
  encodeKeyFunc : Item → Except Err (List Nat)
  decodeKeyFunc : List Nat → Except Err Item
  encodeValueFunc : Item → Except Err (List Nat)
  decodeValueFunc : Item → List Nat → Except Err Item

/-- `DB.NewIndex` from `index.go`, with the schema registry's
allocated prefix byte `id` passed directly (`db.schemaIndexPrefix` is
not under src/).  `encodeKeyFunc` prepends the one-byte prefix to the
codec-emitted key; `decodeKeyFunc` strips the first byte (Go
`key[1:]`, here the total `List.drop 1`; the safety of the Go slicing
is the subject of a separate theorem below). -/
def NewIndex (id : Nat) (funcs : IndexFuncs) : Index :=
  { pfx := [id]
    encodeKeyFunc := fun e =>
      match funcs.EncodeKey e with
      | .error err => .error err
      | .ok key => .ok (id :: key)
    decodeKeyFunc := fun key => funcs.DecodeKey (key.drop 1)
    encodeValueFunc := funcs.EncodeValue
    decodeValueFunc := funcs.DecodeValue }

/-- `Index.Get` from `index.go`: encode the key, fetch the value,
decode it, and merge the caller-supplied key fields into the decoded
item. -/
def Index.Get (f : Index) (db : DBModel) (keyFields : Item) : Except Err Item :=
  match f.encodeKeyFunc keyFields with
  | .error e => .error e
  | .ok key =>
    match dbGet db key with
    | none => .error Err.notFound
    | some value =>
      match f.decodeValueFunc keyFields value with
      | .error e => .error e
      | .ok out => .ok (out.Merge keyFields)

/-- `Index.Has` from `index.go`: encode the key and query existence. -/
def Index.Has (f : Index) (db : DBModel) (keyFields : Item) : Except Err Bool :=
  match f.encodeKeyFunc keyFields with
  | .error e => .error e
  | .ok key => .ok (dbHas db key)

/-- One round of the `Index.HasMulti` loop from `index.go`: encode the
key, seek the snapshot iterator to it, and report whether the iterator
landed exactly on that key. -/
def hasMultiStep (f : Index) (keys : List (List Nat)) (keyFields : Item) : Except Err Bool :=
  match f.encodeKeyFunc keyFields with
  | .error e => .error e
  | .ok key =>
    match seek keys key with
    | none => .ok false
    | some k => .ok (key == k)

/-- `Index.HasMulti` from `index.go`: a single snapshot (`keys`, the
sorted key list of the read transaction) and one seek per input item,
results in input order; the first encoding error aborts. -/
def Index.HasMulti (f : Index) (keys : List (List Nat)) : List Item → Except Err (List Bool)
  | [] => .ok []
  | it :: rest =>
    match hasMultiStep f keys it with
    | .error e => .error e
    | .ok b =>
      match Index.HasMulti f keys rest with
      | .error e => .error e
      | .ok bs => .ok (b :: bs)

/-- `Index.Put` from `index.go`: encode key and value and write. -/
def Index.Put (f : Index) (db : DBModel) (i : Item) : Except Err DBModel :=
  match f.encodeKeyFunc i with
  | .error e => .error e
  | .ok key =>
    match f.encodeValueFunc i with
    | .error e => .error e
    | .ok value => .ok (dbPut db key value)

/-- `Index.Delete` from `index.go`: encode the key and delete. -/
def Index.Delete (f : Index) (db : DBModel) (keyFields : Item) : Except Err DBModel :=
  match f.encodeKeyFunc keyFields with
  | .error e => .error e
  | .ok key => .ok (dbDelete db key)

/-- One round of the `Index.Fill` loop from `index.go`: encode the
item's key, fetch the value in the read transaction (`badger`'s
key-not-found surfaced as `notFound`), decode it, and merge the
original item into the decoded one. -/
def fillStep (f : Index) (db : DBModel) (item : Item) : Except Err Item :=
  match f.encodeKeyFunc item with
  | .error e => .error e
  | .ok key =>
    match dbGet db key with
    | none => .error Err.notFound
    | some value =>
      match f.decodeValueFunc item value with
      | .error e => .error e
      | .ok decodedItem => .ok (decodedItem.Merge item)

/-- `Index.Fill` from `index.go`: replace each slice entry in order by
`decoded.Merge(original)`; the first failure stops the loop, leaving
that entry and all later ones unchanged, and returns the error. -/
def Index.Fill (f : Index) (db : DBModel) : List Item → List Item × Option Err
  | [] => ([], none)
  | item :: rest =>
    match fillStep f db item with
    | .error e => (item :: rest, some e)
    | .ok newItem =>
      match Index.Fill f db rest with
      | (rest2, e) => (newItem :: rest2, e)

/-- `IterateOptions` from `index.go` (`Pfx` is the Go field
`Prefix`). -/
structure IterateOptions where
  StartFrom : Option Item
  SkipStartFromItem : Bool
  Pfx : List Nat

/-- `Index.itemFromKeyValue` from `index.go`: keys outside the scan
prefix yield `badger.ErrKeyNotFound` (here `notFound`); otherwise the
key and then the value are decoded and the key item wins the merge.
The Go byte-slice copies are identity on immutable lists. -/
def Index.itemFromKeyValue (f : Index) (key value totalPfx : List Nat) : Except Err Item :=
  if hasPrefixB totalPfx key then
    match f.decodeKeyFunc key with
    | .error e => .error e
    | .ok keyItem =>
      match f.decodeValueFunc keyItem value with
      | .error e => .error e
      | .ok valueItem => .ok (keyItem.Merge valueItem)
  else .error Err.notFound

/-- The loop body of `Index.Iterate` from `index.go` driven over the
ascending `(key, value)` pairs the engine yields (`db.Iterate` itself
is not under src/): a `notFound` from `itemFromKeyValue` stops cleanly,
any other error propagates, otherwise the user callback decides.  The
second component records the items on which the user callback was
invoked, in order, as an observation of the run. -/
def iterateRun (f : Index) (scanPfx : List Nat) (fn : Item → Except Err Bool) :
    List (List Nat × List Nat) → Except Err Unit × List Item
  | [] => (.ok (), [])
  | (key, value) :: rest =>
    match f.itemFromKeyValue key value scanPfx with
    | .error e => if e = Err.notFound then (.ok (), []) else (.error e, [])
    | .ok item =>
      match fn item with
      | .error e => (.error e, [item])
      | .ok true => (.ok (), [item])
      | .ok false =>
        match iterateRun f scanPfx fn rest with
        | (r, tr) => (r, item :: tr)

/-- `Index.Iterate` from `index.go`: scan prefix is the index prefix
followed by the options' common prefix; a `StartFrom` item has its key
encoded (failures propagate) to seed the engine scan.  `pairs` models
the ascending pair sequence the engine yields from that start key. -/
def Index.Iterate (f : Index) (fn : Item → Except Err Bool) (options : Option IterateOptions)
    (pairs : List (List Nat × List Nat)) : Except Err Unit × List Item :=
  let opts := options.getD { StartFrom := none, SkipStartFromItem := false, Pfx := [] }
  let scanPfx := f.pfx ++ opts.Pfx
  match opts.StartFrom with
  | none => iterateRun f scanPfx fn pairs
  | some startFrom =>
    match f.encodeKeyFunc startFrom with
    | .error e => (.error e, [])
    | .ok _ => iterateRun f scanPfx fn pairs

/-- `Index.First` from `index.go`: `firstKV` models the result of
`db.First(totalPfx)` (not under src/); the pair is decoded through
`itemFromKeyValue` against the combined prefix. -/
def Index.First (f : Index) (firstKV : Option (List Nat × List Nat)) (pr : List Nat) :
    Except Err Item :=
  let totalPfx := f.pfx ++ pr
  match firstKV with
  | none => .error Err.notFound
  | some (k, v) => f.itemFromKeyValue k v totalPfx

/-- `Index.Last` from `index.go`: `lastKV` models the result of
`db.Last(totalPfx)` (not under src/). -/
def Index.Last (f : Index) (lastKV : Option (List Nat × List Nat)) (pr : List Nat) :
    Except Err Item :=
  let totalPfx := f.pfx ++ pr
  match lastKV with
  | none => .error Err.notFound
  | some (k, v) => f.itemFromKeyValue k v totalPfx

/-- `Index.Count` from `index.go`: count of keys under the index
prefix. -/
def Index.Count (f : Index) (db : DBModel) : Nat :=
  dbCountPfx db f.pfx

/-- `Index.CountFrom` from `index.go`: encode the start item's key and
count from it. -/
def Index.CountFrom (f : Index) (db : DBModel) (start : Item) : Except Err Nat :=
  match f.encodeKeyFunc start with
  | .error e => .error e
  | .ok startKey => .ok (dbCountFrom db startKey)

/-- `incByteSlice` from `index.go`, as structural recursion: the Go
loop walks from the last byte leftwards, zeroing a trailing run of
`255`s and incrementing the first byte below `255`; equivalently, if
the tail is incrementable keep the head, otherwise the tail is all
`255`s (it becomes zeros) and the head itself is incremented, with
`none` (Go `nil`) when every byte is `255`. -/
def incByteSlice : List Nat → Option (List Nat)
  | [] => none
  | x :: xs =>
    match incByteSlice xs with
    | some nxt => some (x :: nxt)
    | none => if x = 255 then none else some ((x + 1) :: List.replicate xs.length 0)

/-- The per-item reference computation for `HasMulti`, following the
spec's words: the list of `Has` results, one per input item, in input
order, against one database snapshot. -/
def hasEach (f : Index) (db : DBModel) : List Item → Except Err (List Bool)
  | [] => .ok []
  | it :: rest =>
    match Index.Has f db it with
    | .error e => .error e
    | .ok b =>
      match hasEach f db rest with
      | .error e => .error e
      | .ok bs => .ok (b :: bs)

/-- Is an `Except` a success? -/
def exIsOk (e : Except Err Item) : Bool :=
  match e with
  | .ok _ => true
  | .error _ => false

/-- The success value of an `Except`, if any. -/
def exToOption (e : Except Err Item) : Option Item :=
  match e with
  | .ok a => some a
  | .error _ => none

/-- A concrete codec bundle for witnesses: the key commits to the
`Tag` field, the value to the `BinID` field. -/
def funcs0 : IndexFuncs :=
  { EncodeKey := fun e => .ok [e.Tag]
    DecodeKey := fun key => .ok { zeroItem with Tag := key.headD 0 }
    EncodeValue := fun e => .ok [e.BinID]
    DecodeValue := fun _ v => .ok { zeroItem with BinID := v.headD 0 } }

/-- A concrete index for witnesses, under prefix byte `1`. -/
def f0 : Index := NewIndex 1 funcs0

/-- An `Item` carrying only a tag. -/
def itemTag (t : Nat) : Item := { zeroItem with Tag := t }

/-- A concrete one-entry database: the `funcs0` encoding of the item
with tag `5` and bin id `9`. -/
def db0 : DBModel := [([1, 5], [9])]

/-- The sorted snapshot key list of `db0`. -/
def keys0 : List (List Nat) := [[1, 5]]

/-- A codec bundle whose key decoder and value decoder both set
`BinID`, to different non-zero values, exhibiting merge precedence. -/
def funcs1 : IndexFuncs :=
  { EncodeKey := fun e => .ok [e.Tag]
    DecodeKey := fun key => .ok { zeroItem with Tag := key.headD 0, BinID := 1 }
    EncodeValue := fun _ => .ok []
    DecodeValue := fun _ _ => .ok { zeroItem with BinID := 2 } }

/-- A concrete index over `funcs1`, under prefix byte `2`. -/
def f1 : Index := NewIndex 2 funcs1

/-- A one-entry database holding the `funcs1` encoding of the item
with tag `5`. -/
def db1 : DBModel := [([2, 5], [])]

/-- The committed field set of the `funcs0` key codec: only `Tag`. -/
def Sk0 : Field → Bool := fun fl => decide (fl = Field.tag)

/-- The committed field set of the `funcs0` value codec: only
`BinID`. -/
def Sv0 : Field → Bool := fun fl => decide (fl = Field.binID)

/-- An `Item` with tag `5` and bin id `9`, the round-trip witness
input. -/
def i1 : Item := { zeroItem with Tag := 5, BinID := 9 }

/-! ## Helper lemmas -/

theorem lexLe_refl (a : List Nat) : lexLe a a = true := by
  induction a with
  | nil => rfl
  | cons x xs ih => simp [lexLe, Nat.lt_irrefl, ih]

theorem lexLe_lexLt_false (a b : List Nat) (h : lexLe a b = true) : lexLt b a = false := by
  induction a generalizing b with
  | nil => cases b <;> rfl
  | cons x xs ih =>
    cases b with
    | nil => simp [lexLe] at h
    | cons y ys =>
      by_cases h1 : x < y
      · have h2 : ¬ y < x := by omega
        simp [lexLt, h1, h2]
      · by_cases h2 : y < x
        · simp [lexLe, h1, h2] at h
        · have h3 : lexLe xs ys = true := by simpa [lexLe, h1, h2] using h
          simp [lexLt, h1, h2, ih ys h3]

theorem seek_exact (keys : List (List Nat)) (key : List Nat)
    (hs : List.Pairwise (fun a b => lexLt a b = true) keys) :
    (match seek keys key with
     | none => false
     | some k => key == k) = decide (key ∈ keys) := by
  induction keys with
  | nil => simp [seek]
  | cons a rest ih =>
    rcases List.pairwise_cons.mp hs with ⟨ha, hrest⟩
    by_cases hle : lexLe key a = true
    · have hfind : seek (a :: rest) key = some a := by
        simp [seek, List.find?_cons, hle]
      rw [hfind]
      by_cases heq : key = a
      · simp [heq]
      · have hnmem : key ∉ rest := by
          intro hmem
          have hlt := ha key hmem
          have hfl := lexLe_lexLt_false key a hle
          rw [hlt] at hfl
          cases hfl
        simp [heq, hnmem]
    · have hle2 : lexLe key a = false := by
        cases h2 : lexLe key a
        · rfl
        · exact absurd h2 hle
      have hfind : seek (a :: rest) key = seek rest key := by
        simp [seek, List.find?_cons, hle2]
      have hne : key ≠ a := by
        intro heq
        rw [heq, lexLe_refl] at hle2
        cases hle2
      rw [hfind, ih hrest]
      simp [List.mem_cons, hne]

theorem incByteSlice_none_iff (b : List Nat) :
    incByteSlice b = none ↔ ∀ x ∈ b, x = 255 := by
  induction b with
  | nil => simp [incByteSlice]
  | cons x xs ih =>
    simp only [incByteSlice]
    cases h : incByteSlice xs with
    | some r =>
      simp only [List.mem_cons]
      constructor
      · intro habs; cases habs
      · intro hall
        have : incByteSlice xs = none := ih.mpr (fun z hz => hall z (Or.inr hz))
        rw [this] at h
        cases h
    | none =>
      rw [h] at ih
      have hall : ∀ z ∈ xs, z = 255 := ih.mp rfl
      by_cases hx : x = 255
      · constructor
        · intro _ z hz
          rcases List.mem_cons.mp hz with h1 | h1
          · rw [h1]; exact hx
          · exact hall z h1
        · intro _
          rw [if_pos hx]
      · constructor
        · intro habs
          rw [if_neg hx] at habs
          cases habs
        · intro hall2
          exact absurd (hall2 x (List.mem_cons_self x xs)) hx

theorem incByteSlice_length (b r : List Nat) (h : incByteSlice b = some r) :
    r.length = b.length := by
  induction b generalizing r with
  | nil => simp [incByteSlice] at h
  | cons x xs ih =>
    simp only [incByteSlice] at h
    cases h2 : incByteSlice xs with
    | some nxt =>
      rw [h2] at h
      cases h
      simp [ih nxt h2]
    | none =>
      rw [h2] at h
      by_cases hx : x = 255
      · simp [hx] at h
      · simp only [hx, if_false] at h
        cases h
        simp

theorem incByteSlice_lexLt (b r : List Nat) (h : incByteSlice b = some r) :
    lexLt b r = true := by
  induction b generalizing r with
  | nil => simp [incByteSlice] at h
  | cons x xs ih =>
    simp only [incByteSlice] at h
    cases h2 : incByteSlice xs with
    | some nxt =>
      rw [h2] at h
      cases h
      simp [lexLt, Nat.lt_irrefl, ih nxt h2]
    | none =>
      rw [h2] at h
      by_cases hx : x = 255
      · simp [hx] at h
      · simp only [hx, if_false] at h
        cases h
        simp [lexLt, Nat.lt_succ_self]

theorem all255_lexLt_false (xs : List Nat) :
    ∀ ys : List Nat, ys.length = xs.length → (∀ y ∈ ys, y < 256) →
      (∀ x ∈ xs, x = 255) → lexLt xs ys = false := by
  induction xs with
  | nil =>
    intro ys hlen _ _
    cases ys with
    | nil => rfl
    | cons y ys => simp at hlen
  | cons x xs ih =>
    intro ys hlen hys hxs
    cases ys with
    | nil => rfl
    | cons y ys =>
      have hx : x = 255 := hxs x (List.mem_cons_self x xs)
      have hy : y < 256 := hys y (List.mem_cons_self y ys)
      subst hx
      have h1 : ¬ (255 < y) := by omega
      by_cases h2 : y < 255
      · simp [lexLt, h1, h2]
      · have hlen2 : ys.length = xs.length := by simpa using hlen
        simp [lexLt, h1, h2,
          ih ys hlen2 (fun z hz => hys z (List.mem_cons_of_mem y hz))
            (fun z hz => hxs z (List.mem_cons_of_mem 255 hz))]

theorem zeros_lexLe (ys : List Nat) : lexLe (List.replicate ys.length 0) ys = true := by
  induction ys with
  | nil => rfl
  | cons y ys ih =>
    by_cases h : 0 < y
    · simp [List.replicate_succ, lexLe, h]
    · have hy : y = 0 := by omega
      subst hy
      simp [List.replicate_succ, lexLe, ih]

theorem incByteSlice_min (b : List Nat) :
    ∀ r : List Nat, (∀ x ∈ b, x < 256) → incByteSlice b = some r →
      ∀ c : List Nat, c.length = b.length → (∀ x ∈ c, x < 256) →
        lexLt b c = true → lexLe r c = true := by
  induction b with
  | nil => intro r _ h; simp [incByteSlice] at h
  | cons x xs ih =>
    intro r hb h c hclen hcb hgt
    cases c with
    | nil => simp at hclen
    | cons y ys =>
      have hylt : y < 256 := hcb y (List.mem_cons_self y ys)
      have hlen2 : ys.length = xs.length := by simpa using hclen
      simp only [incByteSlice] at h
      cases h2 : incByteSlice xs with
      | some r2 =>
        rw [h2] at h
        cases h
        by_cases hxy : x < y
        · simp [lexLe, hxy]
        · by_cases hyx : y < x
          · simp [lexLt, hxy, hyx] at hgt
          · have hxeq : x = y := by omega
            subst hxeq
            have htail : lexLt xs ys = true := by
              simpa [lexLt, Nat.lt_irrefl] using hgt
            have hmin := ih r2 (fun z hz => hb z (List.mem_cons_of_mem x hz)) h2 ys hlen2
              (fun z hz => hcb z (List.mem_cons_of_mem x hz)) htail
            simp [lexLe, Nat.lt_irrefl, hmin]
      | none =>
        rw [h2] at h
        by_cases hx255 : x = 255
        · simp [hx255] at h
        · simp only [hx255, if_false] at h
          cases h
          have hxsall : ∀ z ∈ xs, z = 255 := (incByteSlice_none_iff xs).mp h2
          by_cases hxy : x < y
          · by_cases hsucc : x + 1 < y
            · simp [lexLe, hsucc]
            · have hyeq : y = x + 1 := by omega
              subst hyeq
              have hzz : lexLe (List.replicate xs.length 0) ys = true := by
                rw [← hlen2]
                exact zeros_lexLe ys
              simp [lexLe, Nat.lt_irrefl, hzz]
          · by_cases hyx : y < x
            · simp [lexLt, hxy, hyx] at hgt
            · have hxeq : x = y := by omega
              subst hxeq
              have htail : lexLt xs ys = true := by
                simpa [lexLt, Nat.lt_irrefl] using hgt
              have hfalse := all255_lexLt_false xs ys hlen2
                (fun z hz => hcb z (List.mem_cons_of_mem x hz)) hxsall
              rw [htail] at hfalse
              cases hfalse

theorem merge_project_union (Sk Sv : Field → Bool) (i : Item) :
    projectItem (fun fl => Sk fl || Sv fl) ((projectItem Sv i).Merge (projectItem Sk i)) =
      projectItem (fun fl => Sk fl || Sv fl) i := by
  have hbool : ∀ b : Bool, b = true ∨ b = false := fun b => by cases b <;> simp
  simp only [projectItem, Item.Merge, Item.mk.injEq]
  refine ⟨?_, ?_, ?_, ?_, ?_, ?_, ?_⟩
  · rcases hbool (Sk Field.address) with hk | hk <;> rcases hbool (Sv Field.address) with hv | hv <;>
      simp [hk, hv] <;> cases ha : i.Address <;> simp [ha]
  · rcases hbool (Sk Field.data) with hk | hk <;> rcases hbool (Sv Field.data) with hv | hv <;>
      simp [hk, hv] <;> cases ha : i.Data <;> simp [ha]
  · rcases hbool (Sk Field.accessTimestamp) with hk | hk <;>
      rcases hbool (Sv Field.accessTimestamp) with hv | hv <;>
      simp [hk, hv] <;> by_cases ha : i.AccessTimestamp = 0 <;> simp [ha]
  · rcases hbool (Sk Field.storeTimestamp) with hk | hk <;>
      rcases hbool (Sv Field.storeTimestamp) with hv | hv <;>
      simp [hk, hv] <;> by_cases ha : i.StoreTimestamp = 0 <;> simp [ha]
  · rcases hbool (Sk Field.binID) with hk | hk <;> rcases hbool (Sv Field.binID) with hv | hv <;>
      simp [hk, hv] <;> by_cases ha : i.BinID = 0 <;> simp [ha]
  · rcases hbool (Sk Field.pinCounter) with hk | hk <;>
      rcases hbool (Sv Field.pinCounter) with hv | hv <;>
      simp [hk, hv] <;> by_cases ha : i.PinCounter = 0 <;> simp [ha]
  · rcases hbool (Sk Field.tag) with hk | hk <;> rcases hbool (Sv Field.tag) with hv | hv <;>
      simp [hk, hv] <;> by_cases ha : i.Tag = 0 <;> simp [ha]

/-! ## Claim theorems -/

/-- C3: `Item.Merge` returns, field by field, the receiver's field
when it is non-zero (non-nil for the byte-slice fields) and the
argument's field otherwise; in particular every non-zero field of the
receiver is preserved unchanged. -/
theorem claim3_merge_fieldwise (a b : Item) :
    (a.Merge b).Address = (if a.Address = none then b.Address else a.Address) ∧
    (a.Merge b).Data = (if a.Data = none then b.Data else a.Data) ∧
    (a.Merge b).AccessTimestamp =
      (if a.AccessTimestamp = 0 then b.AccessTimestamp else a.AccessTimestamp) ∧
    (a.Merge b).StoreTimestamp =
      (if a.StoreTimestamp = 0 then b.StoreTimestamp else a.StoreTimestamp) ∧
    (a.Merge b).BinID = (if a.BinID = 0 then b.BinID else a.BinID) ∧
    (a.Merge b).PinCounter = (if a.PinCounter = 0 then b.PinCounter else a.PinCounter) ∧
    (a.Merge b).Tag = (if a.Tag = 0 then b.Tag else a.Tag) := by
  refine ⟨?_, ?_, rfl, rfl, rfl, rfl, rfl⟩
  · cases h : a.Address <;> simp [Item.Merge, h]
  · cases h : a.Data <;> simp [Item.Merge, h]

/-- C6: when the engine scan yields a key that does not start with the
scan prefix (index prefix byte followed by the options' common
prefix), `Iterate` terminates with a nil error and the user callback
is not invoked on that pair or on any later pair (the invocation trace
of the remaining scan is empty). -/
theorem claim6_iterate_stops_on_divergent_key (f : Index) (fn : Item → Except Err Bool)
    (skip : Bool) (cp k v : List Nat) (rest : List (List Nat × List Nat))
    (h : hasPrefixB (f.pfx ++ cp) k = false) :
    Index.Iterate f fn (some { StartFrom := none, SkipStartFromItem := skip, Pfx := cp })
      ((k, v) :: rest) = (.ok (), []) := by
  simp [Index.Iterate, iterateRun, Index.itemFromKeyValue, h]

/-- C6 witness: a key under prefix byte `2` diverges from index `f0`'s
scan prefix `[1]`, so the scan `([2,3] ↦ [4]) :: rest` stops cleanly
with no callback invocation. -/
theorem claim6_witness :
    Index.Iterate f0 (fun _ => .error Err.engineIO)
      (some { StartFrom := none, SkipStartFromItem := false, Pfx := [] })
      [([2, 3], [4]), ([1, 5], [9])] = (.ok (), []) :=
  claim6_iterate_stops_on_divergent_key f0 (fun _ => .error Err.engineIO) false [] [2, 3] [4]
    [([1, 5], [9])] (by decide)

/-- C10: `itemFromKeyValue` reaches the user key decoder only behind a
has-prefix check against a prefix of length at least one, so every key
handed to the decoder is non-empty and the unconditional strip of the
first byte (Go `key[1:]`, here `List.drop 1`) removes exactly one
existing byte and cannot index out of bounds. -/
theorem claim10_decode_key_safety (f : Index) (id : Nat) (funcs : IndexFuncs)
    (key value : List Nat) (b : Nat) (pr : List Nat) :
    (hasPrefixB (b :: pr) key = false →
      Index.itemFromKeyValue f key value (b :: pr) = .error Err.notFound) ∧
    (hasPrefixB (b :: pr) key = true → 1 ≤ key.length) ∧
    (NewIndex id funcs).decodeKeyFunc key = funcs.DecodeKey (key.drop 1) ∧
    (1 ≤ key.length → (key.drop 1).length + 1 = key.length) ∧
    (NewIndex id funcs).pfx.length = 1 := by
  refine ⟨?_, ?_, rfl, ?_, rfl⟩
  · intro h
    simp [Index.itemFromKeyValue, h]
  · intro h
    cases key with
    | nil => simp [hasPrefixB] at h
    | cons z zs => simp
  · intro h
    cases key with
    | nil => simp at h
    | cons z zs => simp

/-- C10 witness: the guard rejects a non-matching key without reaching
the decoder, and a matching key under the one-byte prefix is
non-empty. -/
theorem claim10_witness :
    Index.itemFromKeyValue f0 [2, 3] [] [1] = .error Err.notFound ∧
    1 ≤ ([1, 5] : List Nat).length :=
  ⟨(claim10_decode_key_safety f0 1 funcs0 [2, 3] [] 1 []).1 (by decide),
   (claim10_decode_key_safety f0 1 funcs0 [1, 5] [] 1 []).2.1 (by decide)⟩

/-- C5: `incByteSlice` on a byte slice with at least one byte below
`0xFF` returns a same-length slice that is strictly greater and is the
lexicographically smallest same-length slice strictly greater than the
input; it returns nil exactly when every byte is `0xFF`; and the three
literal examples of the spec hold. -/
theorem claim5_inc_byte_successor (b : List Nat) (hb : ∀ x ∈ b, x < 256) :
    (incByteSlice b = none ↔ ∀ x ∈ b, x = 255) ∧
    (∀ r, incByteSlice b = some r →
      r.length = b.length ∧ lexLt b r = true ∧
      ∀ c, c.length = b.length → (∀ x ∈ c, x < 256) → lexLt b c = true → lexLe r c = true) ∧
    incByteSlice [1, 255] = some [2, 0] ∧
    incByteSlice [255, 255] = none ∧
    incByteSlice [0] = some [1] :=
  ⟨incByteSlice_none_iff b,
   fun r h => ⟨incByteSlice_length b r h, incByteSlice_lexLt b r h, incByteSlice_min b r hb h⟩,
   by decide, by decide, by decide⟩

/-- C5 witness: the successor of `0x01 0xFF` keeps the length, is
strictly greater, and is at most the greater same-length slice
`0xFF 0xFF`. -/
theorem claim5_witness :
    (([2, 0] : List Nat).length = ([1, 255] : List Nat).length ∧
      lexLt [1, 255] [2, 0] = true) ∧
    lexLe [2, 0] [255, 255] = true := by
  have h := (claim5_inc_byte_successor [1, 255] (by decide)).2.1 [2, 0] (by decide)
  exact ⟨⟨h.1, h.2.1⟩, h.2.2 [255, 255] (by decide) (by decide) (by decide)⟩

/-- C4: when the key codec succeeds, `Get` returns
`decoded_value.merge(key_fields)` if the encoded key is present and
the value decodes, and otherwise fails exactly with `notFound` (key
absent), the value decode error, or — for any item — its key encode
error. -/
theorem claim4_get_behaviour (f : Index) (db : DBModel) (kf : Item)
    (key value : List Nat) (out : Item)
    (hk : f.encodeKeyFunc kf = .ok key) :
    (dbGet db key = some value → f.decodeValueFunc kf value = .ok out →
      Index.Get f db kf = .ok (out.Merge kf)) ∧
    (dbGet db key = none → Index.Get f db kf = .error Err.notFound) ∧
    (∀ e, dbGet db key = some value → f.decodeValueFunc kf value = .error e →
      Index.Get f db kf = .error e) ∧
    (∀ kf2 e, f.encodeKeyFunc kf2 = .error e → Index.Get f db kf2 = .error e) := by
  refine ⟨?_, ?_, ?_, ?_⟩
  · intro h1 h2
    simp [Index.Get, hk, h1, h2]
  · intro h1
    simp [Index.Get, hk, h1]
  · intro e h1 h2
    simp [Index.Get, hk, h1, h2]
  · intro kf2 e h1
    simp [Index.Get, h1]

/-- C4 witness: on the concrete index `f0`, getting the stored tag-5
entry of `db0` returns the decoded value merged with the key
fields. -/
theorem claim4_witness :
    Index.Get f0 db0 (itemTag 5) = .ok (({ zeroItem with BinID := 9 }).Merge (itemTag 5)) :=
  (claim4_get_behaviour f0 db0 (itemTag 5) [1, 5] [9] { zeroItem with BinID := 9 }
    (by decide)).1 (by decide) (by decide)

/-- C9: `itemFromKeyValue` — the decode path of Iterate, First and
Last — returns `keyItem.Merge(valueItem)`, so a field set non-zero by
both decoders takes the key decoder's value, while `Get` returns
`decoded_value.Merge(key_fields)`, the opposite precedence; each
non-zero field of a merge receiver is preserved. -/
theorem claim9_merge_precedence (f : Index) (db : DBModel) (key value tp gkey : List Nat)
    (kf kI vI out : Item) :
    (hasPrefixB tp key = true → f.decodeKeyFunc key = .ok kI →
      f.decodeValueFunc kI value = .ok vI →
      Index.itemFromKeyValue f key value tp = .ok (kI.Merge vI)) ∧
    (∀ pr, Index.First f (some (key, value)) pr =
      Index.itemFromKeyValue f key value (f.pfx ++ pr)) ∧
    (∀ pr, Index.Last f (some (key, value)) pr =
      Index.itemFromKeyValue f key value (f.pfx ++ pr)) ∧
    (f.encodeKeyFunc kf = .ok gkey → dbGet db gkey = some value →
      f.decodeValueFunc kf value = .ok out → Index.Get f db kf = .ok (out.Merge kf)) ∧
    (∀ a b : Item,
      (a.Address ≠ none → (a.Merge b).Address = a.Address) ∧
      (a.Data ≠ none → (a.Merge b).Data = a.Data) ∧
      (a.AccessTimestamp ≠ 0 → (a.Merge b).AccessTimestamp = a.AccessTimestamp) ∧
      (a.StoreTimestamp ≠ 0 → (a.Merge b).StoreTimestamp = a.StoreTimestamp) ∧
      (a.BinID ≠ 0 → (a.Merge b).BinID = a.BinID) ∧
      (a.PinCounter ≠ 0 → (a.Merge b).PinCounter = a.PinCounter) ∧
      (a.Tag ≠ 0 → (a.Merge b).Tag = a.Tag)) := by
  refine ⟨?_, fun pr => rfl, fun pr => rfl, ?_, ?_⟩
  · intro h1 h2 h3
    simp [Index.itemFromKeyValue, h1, h2, h3]
  · intro h1 h2 h3
    simp [Index.Get, h1, h2, h3]
  · intro a b
    refine ⟨?_, ?_, fun h => by simp [Item.Merge, h], fun h => by simp [Item.Merge, h],
      fun h => by simp [Item.Merge, h], fun h => by simp [Item.Merge, h],
      fun h => by simp [Item.Merge, h]⟩
    · intro h
      cases ha : a.Address with
      | none => exact absurd ha h
      | some z => simp [Item.Merge, ha]
    · intro h
      cases ha : a.Data with
      | none => exact absurd ha h
      | some z => simp [Item.Merge, ha]

/-- C9 witness: on index `f1` both decoders set `BinID` (key decoder
to 1, value decoder to 2); the iterate-side decode keeps the
key-decoded 1, while `Get` keeps the value-decoded 2. -/
theorem claim9_witness :
    Index.itemFromKeyValue f1 [2, 5] [] [2] =
      .ok (({ zeroItem with Tag := 5, BinID := 1 }).Merge { zeroItem with BinID := 2 }) ∧
    Index.Get f1 db1 (itemTag 5) = .ok (({ zeroItem with BinID := 2 }).Merge (itemTag 5)) :=
  ⟨(claim9_merge_precedence f1 db1 [2, 5] [] [2] [2, 5] (itemTag 5)
      { zeroItem with Tag := 5, BinID := 1 } { zeroItem with BinID := 2 }
      { zeroItem with BinID := 2 }).1 (by decide) (by decide) (by decide),
   (claim9_merge_precedence f1 db1 [2, 5] [] [2] [2, 5] (itemTag 5)
      { zeroItem with Tag := 5, BinID := 1 } { zeroItem with BinID := 2 }
      { zeroItem with BinID := 2 }).2.2.2.1 (by decide) (by decide) (by decide)⟩

/-- C2: for an index built by `NewIndex`, every operation hands the
database the single prefix byte followed by the codec-emitted key
bytes (get, has, has-multi, put, delete, fill, count-from, and the
start key and scan prefix of iterate/first/last/count), and the user
key decoder always receives the stored key with exactly its first byte
removed. -/
theorem claim2_prefix_discipline (id : Nat) (funcs : IndexFuncs) (db : DBModel)
    (keys : List (List Nat)) (pairs : List (List Nat × List Nat))
    (fn : Item → Except Err Bool) (skip : Bool) (cp : List Nat)
    (kf : Item) (ck cv : List Nat)
    (hk : funcs.EncodeKey kf = .ok ck) :
    (NewIndex id funcs).encodeKeyFunc kf = .ok (id :: ck) ∧
    (∀ key, (NewIndex id funcs).decodeKeyFunc key = funcs.DecodeKey (key.drop 1)) ∧
    Index.Get (NewIndex id funcs) db kf =
      (match dbGet db (id :: ck) with
       | none => Except.error Err.notFound
       | some value =>
         match funcs.DecodeValue kf value with
         | .error e => .error e
         | .ok out => .ok (out.Merge kf)) ∧
    Index.Has (NewIndex id funcs) db kf = .ok (dbHas db (id :: ck)) ∧
    (funcs.EncodeValue kf = .ok cv →
      Index.Put (NewIndex id funcs) db kf = .ok (dbPut db (id :: ck) cv)) ∧
    Index.Delete (NewIndex id funcs) db kf = .ok (dbDelete db (id :: ck)) ∧
    hasMultiStep (NewIndex id funcs) keys kf =
      (match seek keys (id :: ck) with
       | none => Except.ok false
       | some k => Except.ok ((id :: ck) == k)) ∧
    fillStep (NewIndex id funcs) db kf =
      (match dbGet db (id :: ck) with
       | none => Except.error Err.notFound
       | some value =>
         match funcs.DecodeValue kf value with
         | .error e => .error e
         | .ok d => .ok (d.Merge kf)) ∧
    Index.CountFrom (NewIndex id funcs) db kf = .ok (dbCountFrom db (id :: ck)) ∧
    Index.Iterate (NewIndex id funcs) fn
      (some { StartFrom := some kf, SkipStartFromItem := skip, Pfx := cp }) pairs =
      iterateRun (NewIndex id funcs) (id :: cp) fn pairs ∧
    (∀ k v, Index.First (NewIndex id funcs) (some (k, v)) cp =
      Index.itemFromKeyValue (NewIndex id funcs) k v (id :: cp)) ∧
    (∀ k v, Index.Last (NewIndex id funcs) (some (k, v)) cp =
      Index.itemFromKeyValue (NewIndex id funcs) k v (id :: cp)) ∧
    Index.Count (NewIndex id funcs) db = dbCountPfx db [id] := by
  have he : (NewIndex id funcs).encodeKeyFunc kf = .ok (id :: ck) := by
    simp [NewIndex, hk]
  refine ⟨he, fun key => rfl, ?_, ?_, ?_, ?_, ?_, ?_, ?_, ?_, ?_, ?_, rfl⟩
  · simp only [Index.Get, he]
    cases dbGet db (id :: ck) <;> rfl
  · simp [Index.Has, he]
  · intro hv
    simp [Index.Put, NewIndex, hk, hv]
  · simp [Index.Delete, he]
  · simp only [hasMultiStep, he]
  · simp only [fillStep, he]
    cases dbGet db (id :: ck) <;> rfl
  · simp [Index.CountFrom, he]
  · simp [Index.Iterate, NewIndex, hk]
  · intro k v
    simp [Index.First, NewIndex]
  · intro k v
    simp [Index.Last, NewIndex]

/-- C2 witness: on the concrete index (prefix byte 1, tag key codec),
the database key for tag 5 is `[1, 5]` and the decoder sees the stored
key minus its first byte. -/
theorem claim2_witness :
    (NewIndex 1 funcs0).encodeKeyFunc (itemTag 5) = .ok (1 :: [5]) ∧
    Index.Has (NewIndex 1 funcs0) db0 (itemTag 5) = .ok (dbHas db0 (1 :: [5])) ∧
    (NewIndex 1 funcs0).decodeKeyFunc [1, 5] = funcs0.DecodeKey ([1, 5].drop 1) := by
  have h := claim2_prefix_discipline 1 funcs0 db0 keys0 [] (fun _ => .ok false) false []
    (itemTag 5) [5] [9] (by decide)
  exact ⟨h.1, h.2.2.2.1, h.2.1 [1, 5]⟩

/-- C1: under the codec invariant — the key codec reads exactly the
fields `Sk` it commits to and its decode recovers them, the value
codec's decode recovers exactly the fields `Sv` it commits to — a
`Put` of `i` followed by `Get` with the key fields of `i` returns an
item equal to `i` on the union `Sk ∪ Sv` of committed fields. -/
theorem claim1_put_get_roundtrip (id : Nat) (funcs : IndexFuncs) (db : DBModel)
    (Sk Sv : Field → Bool) (i : Item) (ck cv : List Nat)
    (hkE : funcs.EncodeKey i = .ok ck)
    (hkEP : funcs.EncodeKey (projectItem Sk i) = .ok ck)
    (hvE : funcs.EncodeValue i = .ok cv)
    (hvD : funcs.DecodeValue (projectItem Sk i) cv = .ok (projectItem Sv i)) :
    Index.Put (NewIndex id funcs) db i = .ok (dbPut db (id :: ck) cv) ∧
    Index.Get (NewIndex id funcs) (dbPut db (id :: ck) cv) (projectItem Sk i) =
      .ok ((projectItem Sv i).Merge (projectItem Sk i)) ∧
    projectItem (fun fl => Sk fl || Sv fl) ((projectItem Sv i).Merge (projectItem Sk i)) =
      projectItem (fun fl => Sk fl || Sv fl) i := by
  refine ⟨?_, ?_, merge_project_union Sk Sv i⟩
  · simp [Index.Put, NewIndex, hkE, hvE]
  · have hget : dbGet (dbPut db (id :: ck) cv) (id :: ck) = some cv := by
      simp [dbGet, dbPut, List.find?_cons]
    simp [Index.Get, NewIndex, hkEP, hget, hvD]

/-- C1 witness: the round trip on the concrete codecs (`Sk0` = tag,
`Sv0` = bin id) for the item with tag 5 and bin id 9. -/
theorem claim1_witness :
    Index.Put (NewIndex 1 funcs0) [] i1 = .ok (dbPut [] (1 :: [5]) [9]) ∧
    Index.Get (NewIndex 1 funcs0) (dbPut [] (1 :: [5]) [9]) (projectItem Sk0 i1) =
      .ok ((projectItem Sv0 i1).Merge (projectItem Sk0 i1)) ∧
    projectItem (fun fl => Sk0 fl || Sv0 fl) ((projectItem Sv0 i1).Merge (projectItem Sk0 i1)) =
      projectItem (fun fl => Sk0 fl || Sv0 fl) i1 :=
  claim1_put_get_roundtrip 1 funcs0 [] Sk0 Sv0 i1 [5] [9]
    (by decide) (by decide) (by decide) (by decide)

/-- C8: `Fill` stops at the first entry whose step fails (key encode
failure, absent key surfaced as `notFound`, or value decode failure),
returning that error; every earlier entry has been replaced in place
by `decoded.Merge(original)` and the failing entry and all later ones
are unchanged. -/
theorem claim8_fill_fail_fast (f : Index) (db : DBModel) (item : Item) (e : Err) :
    ∀ pre : List Item, (∀ x ∈ pre, exIsOk (fillStep f db x) = true) →
      fillStep f db item = .error e →
      ∀ post : List Item,
        Index.Fill f db (pre ++ item :: post) =
          (pre.map (fun x => (exToOption (fillStep f db x)).getD x) ++ item :: post, some e) := by
  intro pre
  induction pre with
  | nil =>
    intro _ hfail post
    simp [Index.Fill, hfail]
  | cons x pre ih =>
    intro hpre hfail post
    have hx := hpre x (List.mem_cons_self x pre)
    cases hy : fillStep f db x with
    | error e2 =>
      rw [hy] at hx
      simp [exIsOk] at hx
    | ok y =>
      have ih2 := ih (fun z hz => hpre z (List.mem_cons_of_mem x hz)) hfail post
      simp [Index.Fill, hy, ih2, exToOption]

/-- C8 witness: filling `[tag-5 item, tag-7 item]` against `db0`
succeeds on the first entry (replaced by the merge) and fails on the
absent second entry with `notFound`, leaving it unchanged. -/
theorem claim8_witness :
    Index.Fill f0 db0 ([itemTag 5] ++ itemTag 7 :: []) =
      ([itemTag 5].map (fun x => (exToOption (fillStep f0 db0 x)).getD x) ++ itemTag 7 :: [],
        some Err.notFound) :=
  claim8_fill_fail_fast f0 db0 (itemTag 7) Err.notFound [itemTag 5] (by decide) (by decide) []

/-- C7: `HasMulti` against a sorted snapshot computes, in input order,
exactly the `Has` answers of the same snapshot; in particular on
`[absent, present, absent]` it returns `[false, true, false]`. -/
theorem claim7_hasmulti_refines_has (f : Index) (db : DBModel) (keys : List (List Nat))
    (items : List Item)
    (hs : List.Pairwise (fun a b => lexLt a b = true) keys)
    (hsnap : ∀ k, dbHas db k = decide (k ∈ keys)) :
    Index.HasMulti f keys items = hasEach f db items ∧
    Index.HasMulti f0 keys0 [itemTag 3, itemTag 5, itemTag 7] = .ok [false, true, false] := by
  constructor
  · have hstep : ∀ it, hasMultiStep f keys it = Index.Has f db it := by
      intro it
      unfold hasMultiStep Index.Has
      cases hk : f.encodeKeyFunc it with
      | error e2 => rfl
      | ok key =>
        show (match seek keys key with
              | none => Except.ok false
              | some k => Except.ok (key == k)) = Except.ok (dbHas db key)
        rw [hsnap key, ← seek_exact keys key hs]
        cases seek keys key <;> rfl
    induction items with
    | nil => rfl
    | cons it rest ih => simp [Index.HasMulti, hasEach, hstep, ih]
  · decide

/-- C7 witness: on the concrete index and the one-entry snapshot, the
batched answers coincide with the three individual `Has` answers. -/
theorem claim7_witness :
    Index.HasMulti f0 keys0 [itemTag 3, itemTag 5, itemTag 7] =
      hasEach f0 db0 [itemTag 3, itemTag 5, itemTag 7] :=
  (claim7_hasmulti_refines_has f0 db0 keys0 [itemTag 3, itemTag 5, itemTag 7]
    (by simp [keys0])
    (fun k => by
      by_cases h : k = [1, 5]
      · subst h; decide
      · have h2 : (([1, 5] : List Nat) == k) = false := by
          cases hb : ([1, 5] : List Nat) == k
          · rfl
          · exact absurd (eq_of_beq hb).symm h
        simp [dbHas, dbGet, db0, keys0, List.find?, h2, h])).1

end Shed
